import Mathlib

/-!
Verification of the WSJ `let` declaration-and-binding subsystem.

Shallow embedding of the WSJ script runner (maloquacious/wsj):

* the PEG grammar for `let` statements from
  `VARIABLE_DECLARATION_AND_ASSIGNMENT.md` (rules `LetStmt`, `LetList`,
  `MultiReturnLet`, `SingleDeclList`, `SingleDecl`), embedded at the token
  level with standard PEG ordered-choice/greedy-repetition semantics;
* the runtime binder and scope chain for declarations (the Go interpreter
  code is not in the repository; those definitions are modelled from the
  specification, as marked in their doc comments);
* `runProgram`, the shebang handling of `runScriptFile`, and the REPL
  heuristic `blockComplete` from `main.go` / the REPL source file.
-/

namespace WSJ

/-- Tokens of a `let` statement, as seen after the `let` keyword.
`other` stands for any token that is none of the listed ones (for instance
a string literal or an operator); the disambiguation grammar never
distinguishes among those. -/
inductive Tok where
  | ident (s : String)
  | comma
  | eq
  | semi
  | lparen
  | rparen
  | num (n : Int)
  | other (s : String)
deriving DecidableEq, Repr

/-- Expressions, as produced by the (external) expression parser.
The disambiguator treats the expression grammar as a black box; for
concrete instances we use literals, variable references and zero-argument
calls, which is all the claims exercise. -/
inductive Expr where
  | lit (n : Int)
  | var (s : String)
  | call (f : String)
deriving DecidableEq, Repr

/-- The declaration-list sum type produced by the `LetList` grammar rule:
`SingleDeclListStmt` (independent single declarations) or
`MultiReturnLetStmt` (one multi-valued declaration). -/
inductive DeclarationList where
  | independentDecls (decls : List (String × Expr))
  | multiValueDecl (names : List String) (rhs : Expr)
deriving DecidableEq, Repr

/-- Discriminator: is this node the multi-valued declaration form? -/
def DeclarationList.isMultiValue : DeclarationList → Bool
  | .multiValueDecl _ _ => true
  | .independentDecls _ => false

/-- The external expression parser, packaged with the (PEG-inherent) fact
that it never produces a remainder longer than its input. -/
structure ExprParser where
  run : List Tok → Option (Expr × List Tok)
  consumes : ∀ t e r, run t = some (e, r) → r.length ≤ t.length

/-- A concrete minimal expression parser: an integer literal, or an
identifier optionally followed by `(` `)` (a zero-argument call).
This is the fragment of WSJ expressions the claims exercise; crucially,
like the full WSJ expression grammar it never consumes a top-level comma. -/
def runSimpleExpr : List Tok → Option (Expr × List Tok)
  | .num n :: rest => some (.lit n, rest)
  | .ident s :: .lparen :: .rparen :: rest => some (.call s, rest)
  | .ident s :: rest => some (.var s, rest)
  | _ => none

theorem runSimpleExpr_consumes : ∀ t e r, runSimpleExpr t = some (e, r) →
    r.length ≤ t.length := by
  intro t e r h
  unfold runSimpleExpr at h
  split at h <;> simp_all
  omega

def simpleExpr : ExprParser := ⟨runSimpleExpr, runSimpleExpr_consumes⟩

/-- Rule `Ident`: exactly one identifier token. -/
def parseIdent (toks : List Tok) : Option (String × List Tok) :=
  match toks with
  | .ident s :: rest => some (s, rest)
  | _ => none

/-- The greedy repetition `(_ "," _ Ident)*` used by `MultiReturnLet`:
collect as many `, Ident` pairs as match; PEG repetition is greedy and
never gives back consumed input. -/
def identRun (toks : List Tok) : List String × List Tok :=
  match toks with
  | .comma :: .ident s :: rest =>
      let (ns, r) := identRun rest
      (s :: ns, r)
  | _ => ([], toks)

/-- Rule `MultiReturnLet <- first:Ident rest:(_ "," _ Ident)+ _ "=" _ expr:Expression`
from the grammar in `VARIABLE_DECLARATION_AND_ASSIGNMENT.md`: at least one
`, Ident` pair must follow the first identifier, then `=` and one expression. -/
def multiReturnLet (p : ExprParser) (toks : List Tok) :
    Option (DeclarationList × List Tok) :=
  match toks with
  | .ident first :: rest =>
      match identRun rest with
      | ([], _) => none
      | (n :: ns, .eq :: rest2) =>
          match p.run rest2 with
          | some (e, rest3) => some (.multiValueDecl (first :: n :: ns) e, rest3)
          | none => none
      | (_ :: _, _) => none
  | _ => none

/-- Rule `SingleDecl <- name:Ident _ "=" _ value:Expression`. -/
def singleDecl (p : ExprParser) (toks : List Tok) :
    Option ((String × Expr) × List Tok) :=
  match toks with
  | .ident n :: .eq :: rest =>
      match p.run rest with
      | some (e, r) => some ((n, e), r)
      | none => none
  | _ => none

theorem singleDecl_consumes (p : ExprParser) (t : List Tok) (d : String × Expr)
    (r : List Tok) (h : singleDecl p t = some (d, r)) : r.length + 2 ≤ t.length := by
  unfold singleDecl at h
  split at h
  case _ n rest =>
    split at h
    case _ e r' hrun =>
      have := p.consumes rest e r' hrun
      simp at h
      simp [← h.2]
      omega
    case _ => exact absurd h (by simp)
  case _ => exact absurd h (by simp)

/-- The greedy repetition `rest:(_ "," _ SingleDecl)*` of `SingleDeclList`:
each iteration consumes a comma and a whole `SingleDecl`; when the
`SingleDecl` after a comma fails, the repetition stops without consuming
that comma (PEG semantics).  The `fuel` argument makes the recursion
structural; every iteration consumes at least three tokens (the comma,
the identifier and the `=`), so fuel equal to the remaining token count
never cuts the repetition short. -/
def singleDeclRest (p : ExprParser) : Nat → List Tok → List (String × Expr) × List Tok
  | 0, toks => ([], toks)
  | fuel + 1, toks =>
    match toks with
    | .comma :: rest =>
        match singleDecl p rest with
        | some (d, r) =>
            let (ds, r2) := singleDeclRest p fuel r
            (d :: ds, r2)
        | none => ([], toks)
    | _ => ([], toks)

/-- Rule `SingleDeclList <- first:SingleDecl rest:(_ "," _ SingleDecl)*`. -/
def singleDeclList (p : ExprParser) (toks : List Tok) :
    Option (DeclarationList × List Tok) :=
  match singleDecl p toks with
  | some (d, r) =>
      let (ds, r2) := singleDeclRest p r.length r
      some (.independentDecls (d :: ds), r2)
  | none => none

/-- Rule `LetList <- MultiReturnLet / SingleDeclList`: PEG ordered choice.
`SingleDeclList` is tried only when `MultiReturnLet` fails; a success of
the first alternative is committed and never revisited. -/
def letList (p : ExprParser) (toks : List Tok) :
    Option (DeclarationList × List Tok) :=
  match multiReturnLet p toks with
  | some res => some res
  | none => singleDeclList p toks

/-- Rule `LetStmt <- "let" _ letList:LetList _ ";"`, embedded from just after
the `let` keyword: parse the `LetList`, then require the `;` delimiter. -/
def letStmt (p : ExprParser) (toks : List Tok) :
    Option (DeclarationList × List Tok) :=
  match letList p toks with
  | some (d, .semi :: rest) => some (d, rest)
  | _ => none

def Tok.isEqTok : Tok → Bool
  | .eq => true
  | _ => false

def Tok.isCommaTok : Tok → Bool
  | .comma => true
  | _ => false

/-- An `=` token occurs in the list, and a comma occurs strictly before
the first such occurrence. -/
def commaBeforeFirstEq (toks : List Tok) : Bool :=
  (toks.takeWhile (fun t => !t.isEqTok)).any Tok.isCommaTok && toks.any Tok.isEqTok

theorem identRun_nil (toks r : List Tok) (h : identRun toks = ([], r)) : r = toks := by
  unfold identRun at h
  split at h
  · simp at h
  · exact (Prod.mk.injEq _ _ _ _ ▸ h).2.symm

theorem identRun_cons (toks : List Tok) (n : String) (ns : List String)
    (r : List Tok) (h : identRun toks = (n :: ns, r)) :
    ∃ t', toks = .comma :: .ident n :: t' ∧ identRun t' = (ns, r) := by
  unfold identRun at h
  split at h
  case _ s rest =>
    simp at h
    exact ⟨rest, by rw [h.1.1], by rw [← h.1.2, ← h.2]⟩
  case _ => simp at h

theorem identRun_rest_mem (ns : List String) (toks r : List Tok)
    (h : identRun toks = (ns, r)) : ∀ x ∈ r, x ∈ toks := by
  induction ns generalizing toks with
  | nil => intro x hx; rw [identRun_nil toks r h] at hx; exact hx
  | cons n ns ih =>
    obtain ⟨t', ht, h'⟩ := identRun_cons toks n ns r h
    intro x hx
    subst ht
    simp
    exact Or.inr (Or.inr (ih t' h' x hx))

theorem multiReturnLet_shape (p : ExprParser) (toks : List Tok)
    (d : DeclarationList) (r : List Tok) (h : multiReturnLet p toks = some (d, r)) :
    d.isMultiValue = true ∧ commaBeforeFirstEq toks = true := by
  unfold multiReturnLet at h
  split at h
  case _ first rest =>
    split at h
    case _ => simp at h
    case _ n ns rest2 hrun =>
      split at h
      case _ e rest3 hp =>
        simp at h
        obtain ⟨t', ht, hrun2⟩ := identRun_cons rest n ns (.eq :: rest2) hrun
        constructor
        · rw [← h.1]; rfl
        · subst ht
          have hmem : Tok.eq ∈ t' :=
            identRun_rest_mem ns t' (.eq :: rest2) hrun2 .eq (by simp)
          simp [commaBeforeFirstEq, List.takeWhile, Tok.isEqTok, Tok.isCommaTok]
          exact ⟨.eq, hmem, rfl⟩
      case _ => simp at h
    case _ => simp at h
  case _ => simp at h

theorem singleDecl_shape (p : ExprParser) (toks : List Tok) (n : String)
    (e : Expr) (r : List Tok) (h : singleDecl p toks = some ((n, e), r)) :
    ∃ rest, toks = .ident n :: .eq :: rest := by
  unfold singleDecl at h
  split at h
  case _ m rest =>
    split at h
    case _ e' r' hp =>
      simp at h
      exact ⟨rest, by rw [h.1.1]⟩
    case _ => simp at h
  case _ => simp at h

theorem singleDeclList_shape (p : ExprParser) (toks : List Tok)
    (d : DeclarationList) (r : List Tok) (h : singleDeclList p toks = some (d, r)) :
    d.isMultiValue = false ∧ commaBeforeFirstEq toks = false := by
  unfold singleDeclList at h
  split at h
  case _ d0 r0 hsd =>
    obtain ⟨n, e⟩ := d0
    obtain ⟨rest, hrest⟩ := singleDecl_shape p toks n e r0 hsd
    rcases hsr : singleDeclRest p r0.length r0 with ⟨ds, r2⟩
    rw [hsr] at h
    simp at h
    constructor
    · rw [← h.1]; rfl
    · subst hrest
      simp [commaBeforeFirstEq, List.takeWhile, Tok.isEqTok, Tok.isCommaTok]
  case _ => simp at h

/-- C1: for every token sequence following `let` that the `LetStmt` rule
parses successfully, the resulting node is a `MultiReturnLetStmt` (the
`MultiValueDecl` form) if and only if a comma occurs before the first `=`
token.  The theorem is quantified over an arbitrary expression parser `p`,
so the decision depends only on the token order — in particular not on
whether the right-hand side is actually a call — and a successful parse of
a comma-bearing identifier run is never an `independentDecls` node. -/
theorem letStmt_multiValue_iff_comma_before_eq (p : ExprParser)
    (toks : List Tok) (d : DeclarationList) (rest : List Tok)
    (h : letStmt p toks = some (d, rest)) :
    d.isMultiValue = true ↔ commaBeforeFirstEq toks = true := by
  unfold letStmt at h
  split at h
  case _ d0 r0 hll =>
    simp at h
    rw [← h.1]
    unfold letList at hll
    split at hll
    case _ res hm =>
      rw [hll] at hm
      obtain ⟨h1, h2⟩ := multiReturnLet_shape p toks d0 (.semi :: r0) hm
      simp [h1, h2]
    case _ =>
      obtain ⟨h1, h2⟩ := singleDeclList_shape p toks d0 (.semi :: r0) hll
      simp [h1, h2]
  case _ => exact absurd h (by simp)

/-- Witness for C1 on the concrete token sequence of `let x, y = 5;`. -/
theorem letStmt_multiValue_iff_comma_before_eq_witness :
    letStmt simpleExpr [.ident "x", .comma, .ident "y", .eq, .num 5, .semi] =
      some (.multiValueDecl ["x", "y"] (.lit 5), []) ∧
    ((DeclarationList.multiValueDecl ["x", "y"] (.lit 5)).isMultiValue = true ↔
      commaBeforeFirstEq [.ident "x", .comma, .ident "y", .eq, .num 5, .semi] = true) :=
  ⟨rfl, letStmt_multiValue_iff_comma_before_eq simpleExpr _ _ _ rfl⟩

/-- Syntax-failure kinds of the declaration parser.  `mixedForm` and
`missingInitializer` are the kinds named by the specification; `malformed`
covers token shapes (for instance a missing identifier) that the
specification leaves unclassified. -/
inductive FailureKind where
  | mixedForm
  | missingInitializer
  | malformed
deriving DecidableEq, Repr

/-- Modelled from the spec: the loop of an `IndependentDecls` sequence,
consuming `, Ident = Expression` pairs until the statement delimiter.
The Go parser for the enhanced `let` statement is not in the repository;
this follows §4.1 step 2 of the specification, classifying a declaration
that lacks an initializer (such as the `y` of `let x = 1, y;`) as
`missingInitializer`. -/
def independentLoop (p : ExprParser) :
    List (String × Expr) → Nat → List Tok →
      Except FailureKind (DeclarationList × List Tok)
  | _, 0, _ => .error .malformed
  | acc, fuel + 1, toks =>
    match toks with
    | .semi :: rest => .ok (.independentDecls acc.reverse, rest)
    | .comma :: .ident n :: .eq :: rest =>
        match p.run rest with
        | some (e, r) => independentLoop p ((n, e) :: acc) fuel r
        | none => .error .missingInitializer
    | .comma :: .ident _ :: _ => .error .missingInitializer
    | _ => .error .malformed

/-- Modelled from the spec: the declaration-form disambiguator of §4.1
with the diagnostic classification of §4.4/§7 (the FailureKind taxonomy
exists only in the specification; the repository's grammar text fails to
parse these inputs without naming a kind).  Parse an identifier; on `=`
begin an `IndependentDecls` sequence; on `,` collect the identifier run
greedily, then require `= Expression ;` — a trailing comma-separated
value list after the expression is the disallowed mixed form; a
declaration lacking an initializer fails with `missingInitializer`. -/
def parseLetClassify (p : ExprParser) (toks : List Tok) :
    Except FailureKind (DeclarationList × List Tok) :=
  match toks with
  | .ident n :: .eq :: rest =>
      match p.run rest with
      | some (e, r) => independentLoop p [(n, e)] r.length r
      | none => .error .missingInitializer
  | .ident n :: .comma :: rest =>
      match identRun (.comma :: rest) with
      | (ns, .eq :: rest2) =>
          match p.run rest2 with
          | some (e, rest3) =>
              match rest3 with
              | .semi :: rest4 => .ok (.multiValueDecl (n :: ns) e, rest4)
              | _ => .error .mixedForm
          | none => .error .missingInitializer
      | (_, .semi :: _) => .error .missingInitializer
      | (_, _) => .error .mixedForm
  | .ident _ :: .semi :: _ => .error .missingInitializer
  | _ => .error .malformed

/-- C4: the mixed form `let x, y = 5, 4;` always fails to parse with the
`MixedForm` syntax failure (spec-modelled classifier) and the PEG grammar
of the repository also rejects it — neither produces a `DeclarationList`
node: the classifier returns an error carrying no node, and `letStmt`
returns `none`. -/
theorem mixedForm_rejected :
    parseLetClassify simpleExpr
      [.ident "x", .comma, .ident "y", .eq, .num 5, .comma, .num 4, .semi] =
      .error .mixedForm ∧
    letStmt simpleExpr
      [.ident "x", .comma, .ident "y", .eq, .num 5, .comma, .num 4, .semi] =
      none :=
  ⟨rfl, rfl⟩

/-- C5: every `let` declaration lacking an initializer — `let x;`,
`let a, b;` and the partial form `let x = 1, y;` — fails to parse with
the `MissingInitializer` syntax failure (spec-modelled classifier), and
the PEG grammar of the repository also rejects each of them; no AST node
is produced for any of the three. -/
theorem missingInitializer_rejected :
    (parseLetClassify simpleExpr [.ident "x", .semi] =
        .error .missingInitializer ∧
      letStmt simpleExpr [.ident "x", .semi] = none) ∧
    (parseLetClassify simpleExpr [.ident "a", .comma, .ident "b", .semi] =
        .error .missingInitializer ∧
      letStmt simpleExpr [.ident "a", .comma, .ident "b", .semi] = none) ∧
    (parseLetClassify simpleExpr
        [.ident "x", .eq, .num 1, .comma, .ident "y", .semi] =
        .error .missingInitializer ∧
      letStmt simpleExpr
        [.ident "x", .eq, .num 1, .comma, .ident "y", .semi] = none) :=
  ⟨⟨rfl, rfl⟩, ⟨rfl, rfl⟩, ⟨rfl, rfl⟩⟩

/-! ## Scope binder (modelled from the spec: the interpreter's Go code is
not in the repository, only its design document and the declaration
semantics in `VARIABLE_DECLARATION_AND_ASSIGNMENT.md`). -/

/-- Runtime values.  The claims only exercise integer values. -/
abbrev Value := Int

/-- Bind-time failures (spec §4.4/§7); `runtime` carries a failure of the
external expression evaluator through the binder. -/
inductive BindFailure where
  | duplicateIdentifier (name : String)
  | redeclarationInScope (name : String)
  | arityMismatch (want got : Nat)
  | runtime (msg : String)
deriving DecidableEq, Repr

/-- Modelled from the spec: a lexical scope — a chain of binding frames,
each owning a name-to-value mapping, with a non-owning link to its parent
(spec §3 and §9; the DESIGN.md interpreter sketch keeps a single flat
global table, which the spec re-architects into this chain). -/
inductive Scope where
  | global (frame : List (String × Value))
  | child (frame : List (String × Value)) (parent : Scope)
deriving DecidableEq, Repr

/-- The current (innermost) frame of a scope. -/
def Scope.frame : Scope → List (String × Value)
  | .global f => f
  | .child f _ => f

/-- Replace the current frame, keeping the parent link. -/
def Scope.withFrame : Scope → List (String × Value) → Scope
  | .global _, f => .global f
  | .child _ p, f => .child f p

/-- Look a name up in a single frame. -/
def frameLookup (f : List (String × Value)) (x : String) : Option Value :=
  match f.find? (fun p => p.1 == x) with
  | some p => some p.2
  | none => none

/-- Name resolution through the scope chain: innermost frame first, so a
nested binding shadows an ancestor's binding of the same spelling. -/
def Scope.lookupVar : Scope → String → Option Value
  | .global f, x => frameLookup f x
  | .child f p, x =>
      match frameLookup f x with
      | some v => some v
      | none => p.lookupVar x

/-- Entering a nested scope: a fresh empty frame whose parent is the
current scope. -/
def enterScope (σ : Scope) : Scope := .child [] σ

/-- Modelled from the spec: declaring a name with `let` (spec §4.2):
fails with `redeclarationInScope` when the name is already bound in the
*current* frame; a binding in an ancestor frame does not block (it is
merely shadowed). -/
def Scope.declareVar (σ : Scope) (x : String) (v : Value) :
    Except BindFailure Scope :=
  match frameLookup σ.frame x with
  | some _ => .error (.redeclarationInScope x)
  | none => .ok (σ.withFrame ((x, v) :: σ.frame))

/-- Declare a list of name/value pairs in order, stopping at the first
failure. -/
def declareAll : Scope → List (String × Value) → Except BindFailure Scope
  | σ, [] => .ok σ
  | σ, (x, v) :: rest =>
      match σ.declareVar x v with
      | .ok σ2 => declareAll σ2 rest
      | .error e => .error e

/-- Modelled from the spec: the binder for the `MultiValueDecl` form
(spec §4.2 and the VM notes of `VARIABLE_DECLARATION_AND_ASSIGNMENT.md`):
the call result's length is compared against the identifier count; on
mismatch the binder fails with `arityMismatch want got` before any
identifier is bound; on match `identifiers[i] := result[i]` in order. -/
def bindMultiValue (names : List String) (result : List Value) (σ : Scope) :
    Except BindFailure Scope :=
  if result.length = names.length then declareAll σ (names.zip result)
  else .error (.arityMismatch names.length result.length)

/-- Evaluate the right-hand sides of an `IndependentDecls` statement in
declared order, every one against the same scope `σ`. -/
def evalRhsList (ev : Expr → Scope → Except String Value) (σ : Scope) :
    List (String × Expr) → Except String (List Value)
  | [] => .ok []
  | d :: ds =>
      match ev d.2 σ with
      | .ok v =>
          match evalRhsList ev σ ds with
          | .ok vs => .ok (v :: vs)
          | .error e => .error e
      | .error e => .error e

/-- Modelled from the spec: the binder for `IndependentDecls` (spec §4.2):
evaluate every right-hand side in declared order against the scope as it
was before the statement began, and only then install the bindings.  The
evaluator is the external `evaluate(Expression, &Scope)` interface,
passed in as a function. -/
def bindIndependent (ev : Expr → Scope → Except String Value)
    (decls : List (String × Expr)) (σ : Scope) : Except BindFailure Scope :=
  match evalRhsList ev σ decls with
  | .ok vals => declareAll σ ((decls.map Prod.fst).zip vals)
  | .error msg => .error (.runtime msg)

/-- A concrete expression evaluator for witnesses: literals and variable
references, the fragment the claims exercise; a call in single-value
position resolves no callee here. -/
def evalExpr (e : Expr) (σ : Scope) : Except String Value :=
  match e with
  | .lit n => .ok n
  | .var x =>
      match σ.lookupVar x with
      | some v => .ok v
      | none => .error ("undefined variable: " ++ x)
  | .call f => .error ("unknown function: " ++ f)

theorem withFrame_frame (σ : Scope) (f : List (String × Value)) :
    (σ.withFrame f).frame = f := by
  cases σ <;> rfl

theorem frameLookup_cons (y : String) (w : Value)
    (f : List (String × Value)) (x : String) :
    frameLookup ((y, w) :: f) x = if y == x then some w else frameLookup f x := by
  unfold frameLookup
  by_cases hyx : (y == x) = true
  · rw [List.find?_cons_of_pos _ (by simpa using hyx)]
    simp [hyx]
  · rw [List.find?_cons_of_neg _ (by simpa using hyx)]
    simp [hyx]

theorem declareVar_ok (σ : Scope) (x : String) (v : Value) (σ2 : Scope)
    (h : σ.declareVar x v = .ok σ2) :
    frameLookup σ.frame x = none ∧ σ2 = σ.withFrame ((x, v) :: σ.frame) := by
  unfold Scope.declareVar at h
  split at h
  · simp at h
  case _ hl =>
    simp at h
    exact ⟨hl, h.symm⟩

theorem declareAll_preserve (ps : List (String × Value)) (σ σ' : Scope)
    (h : declareAll σ ps = .ok σ') :
    ∀ x v, frameLookup σ.frame x = some v → frameLookup σ'.frame x = some v := by
  induction ps generalizing σ with
  | nil =>
    intro x v hx
    unfold declareAll at h
    simp at h
    rw [← h]
    exact hx
  | cons p rest ih =>
    obtain ⟨y, w⟩ := p
    intro x v hx
    unfold declareAll at h
    split at h
    case _ σ2 hd =>
      obtain ⟨hfresh, hσ2⟩ := declareVar_ok σ y w σ2 hd
      refine ih σ2 h x v ?_
      rw [hσ2, withFrame_frame, frameLookup_cons]
      have hne : (y == x) = false := by
        by_contra hc
        simp at hc
        rw [hc] at hfresh
        rw [hfresh] at hx
        simp at hx
      simp [hne]
      exact hx
    case _ => simp at h

theorem declareAll_lookup (ps : List (String × Value)) (σ σ' : Scope)
    (h : declareAll σ ps = .ok σ') :
    ∀ i (hi : i < ps.length),
      frameLookup σ'.frame (ps.get ⟨i, hi⟩).1 = some (ps.get ⟨i, hi⟩).2 := by
  induction ps generalizing σ with
  | nil => intro i hi; exact absurd hi (by simp)
  | cons p rest ih =>
    obtain ⟨x, v⟩ := p
    unfold declareAll at h
    split at h
    case _ σ2 hd =>
      obtain ⟨hfresh, hσ2⟩ := declareVar_ok σ x v σ2 hd
      intro i hi
      match i with
      | 0 =>
        refine declareAll_preserve rest σ2 σ' h x v ?_
        rw [hσ2, withFrame_frame, frameLookup_cons]
        simp
      | j + 1 =>
        exact ih σ2 h j (by simpa using hi)
    case _ => simp at h

theorem lookupVar_of_frame (σ : Scope) (x : String) (v : Value)
    (h : frameLookup σ.frame x = some v) : σ.lookupVar x = some v := by
  cases σ with
  | global f => exact h
  | child f p =>
    unfold Scope.lookupVar
    rw [show (Scope.child f p).frame = f from rfl] at h
    rw [h]

theorem declareAll_success (ps : List (String × Value)) (σ : Scope)
    (hnd : (ps.map Prod.fst).Nodup)
    (hfresh : ∀ p ∈ ps, frameLookup σ.frame p.1 = none) :
    ∃ σ', declareAll σ ps = .ok σ' := by
  induction ps generalizing σ with
  | nil => exact ⟨σ, rfl⟩
  | cons p rest ih =>
    obtain ⟨x, v⟩ := p
    have hx : frameLookup σ.frame x = none := hfresh (x, v) (by simp)
    have hstep : σ.declareVar x v = .ok (σ.withFrame ((x, v) :: σ.frame)) := by
      unfold Scope.declareVar
      rw [hx]
    rw [List.map_cons, List.nodup_cons] at hnd
    have hfresh2 : ∀ q ∈ rest,
        frameLookup ((σ.withFrame ((x, v) :: σ.frame)).frame) q.1 = none := by
      intro q hq
      rw [withFrame_frame, frameLookup_cons]
      have hqx : (x == q.1) = false := by
        simp only [beq_eq_false_iff_ne, ne_eq]
        intro hcontra
        have hmem : q.1 ∈ rest.map Prod.fst := List.mem_map_of_mem Prod.fst hq
        rw [← hcontra] at hmem
        exact hnd.1 hmem
      simp [hqx]
      exact hfresh q (List.mem_cons_of_mem _ hq)
    obtain ⟨σ', hσ'⟩ := ih (σ.withFrame ((x, v) :: σ.frame)) hnd.2 hfresh2
    refine ⟨σ', ?_⟩
    unfold declareAll
    rw [hstep]
    exact hσ'

theorem evalRhsList_ok (ev : Expr → Scope → Except String Value) (σ : Scope)
    (ds : List (String × Expr)) (vs : List Value)
    (h : evalRhsList ev σ ds = .ok vs) :
    vs.length = ds.length ∧
      ∀ i (hi : i < ds.length) (hi' : i < vs.length),
        ev (ds.get ⟨i, hi⟩).2 σ = .ok (vs.get ⟨i, hi'⟩) := by
  induction ds generalizing vs with
  | nil =>
    unfold evalRhsList at h
    simp at h
    subst h
    exact ⟨rfl, by intro i hi; exact absurd hi (by simp)⟩
  | cons d ds ih =>
    unfold evalRhsList at h
    split at h
    case _ v hv =>
      split at h
      case _ vs0 hvs =>
        simp at h
        obtain ⟨hlen, hget⟩ := ih vs0 hvs
        subst h
        refine ⟨by simp [hlen], ?_⟩
        intro i hi hi'
        match i with
        | 0 => exact hv
        | j + 1 => exact hget j (by simpa using hi) (by simpa using hi')
      case _ => simp at h
    case _ => simp at h

/-- C2: binding `let i1, …, in = call();` with `n ≥ 2` pairwise distinct
identifiers not yet declared in the current frame: when the call result
has exactly `n` values the binder succeeds and binds `i_k` to the `k`-th
returned value in order; when it has `m ≠ n` values the binder fails with
`arityMismatch n m` and produces no scope at all, so no identifier is
bound and the caller's scope is unchanged on the error path. -/
theorem bindMultiValue_arity (names : List String) (result : List Value)
    (σ : Scope) (hn : 2 ≤ names.length) (hnd : names.Nodup)
    (hfresh : ∀ x ∈ names, frameLookup σ.frame x = none) :
    (result.length = names.length →
      ∃ σ', bindMultiValue names result σ = .ok σ' ∧
        ∀ i (hi : i < names.length),
          σ'.lookupVar (names.get ⟨i, hi⟩) = result.get? i) ∧
    (result.length ≠ names.length →
      bindMultiValue names result σ =
        .error (.arityMismatch names.length result.length)) := by
  constructor
  · intro hlen
    have hmapfst : (names.zip result).map Prod.fst = names :=
      List.map_fst_zip names result (by omega)
    have hnd2 : ((names.zip result).map Prod.fst).Nodup := by
      rw [hmapfst]; exact hnd
    have hfresh2 : ∀ p ∈ names.zip result, frameLookup σ.frame p.1 = none := by
      intro p hp
      exact hfresh p.1 (by
        have : p.1 ∈ (names.zip result).map Prod.fst := List.mem_map_of_mem _ hp
        rwa [hmapfst] at this)
    obtain ⟨σ', hσ'⟩ := declareAll_success (names.zip result) σ hnd2 hfresh2
    refine ⟨σ', by simp [bindMultiValue, hlen, hσ'], ?_⟩
    intro i hi
    have hiz : i < (names.zip result).length := by
      simp [List.length_zip]
      omega
    have hlk := declareAll_lookup (names.zip result) σ σ' hσ' i hiz
    have hz : (names.zip result).get ⟨i, hiz⟩ =
        (names.get ⟨i, hi⟩, result.get ⟨i, by omega⟩) := by
      simp [List.get_eq_getElem, List.getElem_zip]
    rw [hz] at hlk
    have hres : result.get? i = some (result.get ⟨i, by omega⟩) :=
      List.get?_eq_get (by omega)
    rw [hres]
    exact lookupVar_of_frame σ' _ _ hlk
  · intro hne
    simp [bindMultiValue, hne]

/-- Witness for C2 with `names = [m, e]` and a two-value call result. -/
theorem bindMultiValue_arity_witness :
    ∃ σ', bindMultiValue ["m", "e"] [7, 0] (.global []) = .ok σ' ∧
      ∀ i (hi : i < (["m", "e"] : List String).length),
        σ'.lookupVar ((["m", "e"] : List String).get ⟨i, hi⟩) =
          ([7, 0] : List Value).get? i :=
  (bindMultiValue_arity ["m", "e"] [7, 0] (.global [])
    (by decide) (by decide) (by decide)).1 rfl

/-- C3: the `IndependentDecls` binder evaluates every right-hand side in
declared order against the scope exactly as it was before the statement
began, and installs the bindings only afterwards: whenever it succeeds,
the value bound to the `i`-th identifier is the evaluation of the `i`-th
expression in the *pre-statement* scope `σ` — so an identifier declared
earlier in the same statement is not visible to any later right-hand side
(the theorem is quantified over an arbitrary external evaluator `ev`). -/
theorem bindIndependent_preState (ev : Expr → Scope → Except String Value)
    (decls : List (String × Expr)) (σ σ' : Scope)
    (h : bindIndependent ev decls σ = .ok σ') :
    ∀ i (hi : i < decls.length), ∃ v,
      ev (decls.get ⟨i, hi⟩).2 σ = .ok v ∧
      σ'.lookupVar (decls.get ⟨i, hi⟩).1 = some v := by
  unfold bindIndependent at h
  split at h
  case _ vals hvals =>
    obtain ⟨hlen, hget⟩ := evalRhsList_ok ev σ decls vals hvals
    intro i hi
    have hiv : i < vals.length := by omega
    refine ⟨vals.get ⟨i, hiv⟩, hget i hi hiv, ?_⟩
    have hiz : i < ((decls.map Prod.fst).zip vals).length := by
      simp [List.length_zip]
      omega
    have hlk := declareAll_lookup ((decls.map Prod.fst).zip vals) σ σ' h i hiz
    have hz : ((decls.map Prod.fst).zip vals).get ⟨i, hiz⟩ =
        ((decls.get ⟨i, hi⟩).1, vals.get ⟨i, hiv⟩) := by
      simp [List.get_eq_getElem, List.getElem_zip]
    rw [hz] at hlk
    exact lookupVar_of_frame σ' _ _ hlk
  case _ => simp at h

/-- Witness for C3: in `let a = 1, b = a;` executed in a child scope whose
parent binds `a` to `5`, the right-hand side of `b` sees the *outer* `a`
(value `5`), not the `a = 1` declared earlier in the same statement. -/
theorem bindIndependent_preState_witness :
    ∃ v, evalExpr ((([("a", Expr.lit 1), ("b", Expr.var "a")] :
        List (String × Expr)).get ⟨1, by decide⟩).2)
        (.child [] (.global [("a", 5)])) = .ok v ∧
      (Scope.child [("b", 5), ("a", 1)] (.global [("a", 5)])).lookupVar
        ((([("a", Expr.lit 1), ("b", Expr.var "a")] :
          List (String × Expr)).get ⟨1, by decide⟩).1) = some v :=
  bindIndependent_preState evalExpr [("a", .lit 1), ("b", .var "a")]
    (.child [] (.global [("a", 5)]))
    (.child [("b", 5), ("a", 1)] (.global [("a", 5)])) rfl 1 (by decide)

/-- C6: binding a name with `let` a second time in the same scope frame
fails with `redeclarationInScope`, while declaring the same name in a
freshly entered nested scope always succeeds — in particular when an
ancestor scope already binds it — and the new binding shadows the outer
one under lookup. -/
theorem declare_redeclare_shadow :
    (∀ (σ : Scope) (x : String) (v1 v2 : Value) (σ1 : Scope),
        σ.declareVar x v1 = .ok σ1 →
        σ1.declareVar x v2 = .error (.redeclarationInScope x)) ∧
    (∀ (σ : Scope) (x : String) (v w : Value),
        σ.lookupVar x = some w →
        ∃ σ2, (enterScope σ).declareVar x v = .ok σ2 ∧
          σ2.lookupVar x = some v ∧ σ2 = .child [(x, v)] σ) := by
  constructor
  · intro σ x v1 v2 σ1 h
    obtain ⟨_, hσ1⟩ := declareVar_ok σ x v1 σ1 h
    unfold Scope.declareVar
    rw [hσ1, withFrame_frame, frameLookup_cons]
    simp
  · intro σ x v w _
    refine ⟨.child [(x, v)] σ, ?_, ?_, rfl⟩
    · unfold Scope.declareVar enterScope
      simp [Scope.frame, frameLookup, Scope.withFrame]
    · unfold Scope.lookupVar
      rw [frameLookup_cons]
      simp [frameLookup]

/-- Witness for C6: redeclaring `x` in the same frame fails; declaring
`x` in a fresh child of a scope that binds `x` to `3` succeeds and
shadows it with `4`. -/
theorem declare_redeclare_shadow_witness :
    ((Scope.global [("x", 1)]).declareVar "x" 2 =
      .error (.redeclarationInScope "x")) ∧
    (∃ σ2, (enterScope (.global [("x", 3)])).declareVar "x" 4 = .ok σ2 ∧
      σ2.lookupVar "x" = some 4 ∧ σ2 = .child [("x", 4)] (.global [("x", 3)])) :=
  ⟨declare_redeclare_shadow.1 (.global []) "x" 1 2 (.global [("x", 1)]) rfl,
   declare_redeclare_shadow.2 (.global [("x", 3)]) "x" 4 3 rfl⟩

/-! ## Function-arity registry (modelled from the spec §4.3: the
repository's own TODO list marks the arity-tracking mechanism and the
built-in registration system as not yet implemented). -/

/-- A registry associating each callable identity with its fixed return
arity. -/
abbrev ArityRegistry := List (String × Nat)

/-- The registry operation `lookup(callable_id) -> Option<arity>` (spec §4.3). -/
def lookupArity (r : ArityRegistry) (id : String) : Option Nat :=
  match r.find? (fun p => p.1 == id) with
  | some p => some p.2
  | none => none

/-- Modelled from the spec: `register(callable_id, fixed_arity)` (§4.3) —
idempotent for identical re-registration, fails when a different arity
is registered for the same callable identity. -/
def register (r : ArityRegistry) (id : String) (arity : Nat) :
    Except String ArityRegistry :=
  match lookupArity r id with
  | some a => if a = arity then .ok r else .error ("conflicting arity for " ++ id)
  | none => .ok ((id, arity) :: r)

theorem lookupArity_cons (y : String) (a : Nat) (r : ArityRegistry)
    (id : String) :
    lookupArity ((y, a) :: r) id = if y == id then some a else lookupArity r id := by
  unfold lookupArity
  by_cases hy : (y == id) = true
  · rw [List.find?_cons_of_pos _ (by simpa using hy)]
    simp [hy]
  · rw [List.find?_cons_of_neg _ (by simpa using hy)]
    simp [hy]

theorem register_ok_lookup (r : ArityRegistry) (id : String) (a : Nat)
    (r' : ArityRegistry) (h : register r id a = .ok r') :
    lookupArity r' id = some a := by
  unfold register at h
  split at h
  case _ a0 hl =>
    split at h
    case _ heq =>
      simp at h
      subst h
      rw [← heq]
      exact hl
    case _ => simp at h
  case _ hl =>
    simp at h
    subst h
    rw [lookupArity_cons]
    simp

/-- C7: the arity registry's `register` is idempotent for re-registration
of the same callable with the identical arity, fails whenever a different
arity is registered for the same callable identity, and a callable's
registered arity never changes after its first successful registration —
neither by a conflicting attempt nor by any later successful registration
of any callable. -/
theorem register_idempotent_immutable (r : ArityRegistry) (id : String)
    (a : Nat) (r' : ArityRegistry) (h : register r id a = .ok r') :
    (register r' id a = .ok r') ∧
    (∀ b, b ≠ a → ∃ msg, register r' id b = .error msg) ∧
    (lookupArity r' id = some a) ∧
    (∀ id' b r'', register r' id' b = .ok r'' → lookupArity r'' id = some a) := by
  have hl : lookupArity r' id = some a := register_ok_lookup r id a r' h
  refine ⟨?_, ?_, hl, ?_⟩
  · unfold register
    rw [hl]
    simp
  · intro b hb
    refine ⟨"conflicting arity for " ++ id, ?_⟩
    unfold register
    rw [hl]
    have : ¬ a = b := fun hc => hb hc.symm
    simp [this]
  · intro id' b r'' h2
    unfold register at h2
    split at h2
    case _ a0 hl2 =>
      split at h2
      case _ =>
        simp at h2
        subst h2
        exact hl
      case _ => simp at h2
    case _ hl2 =>
      simp at h2
      subst h2
      rw [lookupArity_cons]
      have hne : (id' == id) = false := by
        simp only [beq_eq_false_iff_ne, ne_eq]
        intro hcontra
        rw [hcontra] at hl2
        rw [hl2] at hl
        simp at hl
      simp [hne]
      exact hl

/-- Witness for C7: registering `load` with arity 2 in the empty
registry, then exercising idempotence, conflict and immutability. -/
theorem register_idempotent_immutable_witness :
    (register [("load", 2)] "load" 2 = .ok [("load", 2)]) ∧
    (∀ b, b ≠ 2 → ∃ msg, register [("load", 2)] "load" b = .error msg) ∧
    (lookupArity [("load", 2)] "load" = some 2) ∧
    (∀ id' b r'', register [("load", 2)] id' b = .ok r'' →
      lookupArity r'' "load" = some 2) :=
  register_idempotent_immutable [] "load" 2 [("load", 2)] rfl

/-! ## `main.go` and the REPL source file (real code under `src/`). -/

/-- A parsed program (`ast.Program`): a list of statements.  `runProgram`
never inspects the statements beyond debug printing, so their node type
is immaterial; the declaration nodes stand in for them. -/
structure Program where
  statements : List DeclarationList
deriving DecidableEq, Repr

/-- The interpreter state (`interpreter.Interpreter` of DESIGN.md): a
global symbol table. -/
structure InterpState where
  globals : List (String × Value)
deriving DecidableEq, Repr

/-- The console output `runProgram` can produce, in order: the `spew`
debug dump, the "Parse successful!" banner, one numbered line per
statement, and the fixed "Program parsed successfully" message. -/
inductive OutputEvent where
  | spewDump (p : Program)
  | parseSuccessBanner
  | statementLine (i : Nat) (s : DeclarationList)
  | parsedMessage
deriving DecidableEq, Repr

/-- The function `runProgram` from `main.go` (lines 87–111): parse the input; on
failure wrap the parse error; on success, when `debug` is set dump the
program and print the numbered statements, then print the fixed success
message and return `nil`.  The interpreter argument is never used — the
statement execution is still a TODO in the source. -/
def runProgram (parse : String → Except String Program)
    (interp : InterpState) (input : String) (debug : Bool) :
    Except String Unit × List OutputEvent × InterpState :=
  match parse input with
  | .error e => (.error ("parse error: " ++ e), [], interp)
  | .ok prog =>
      let debugOut :=
        if debug then
          OutputEvent.spewDump prog :: OutputEvent.parseSuccessBanner ::
            prog.statements.enum.map
              (fun p => OutputEvent.statementLine (p.1 + 1) p.2)
        else []
      (.ok (), debugOut ++ [OutputEvent.parsedMessage], interp)

/-- C8: for every input whose parse succeeds and yields a program,
`runProgram` returns success after (optionally) the debug output and the
fixed success message; it leaves the interpreter state exactly as it
was, and its printed output does not depend on the interpreter argument
at all — no statement is evaluated and no binding is installed. -/
theorem runProgram_no_execution (parse : String → Except String Program)
    (interp interp' : InterpState) (input : String) (prog : Program)
    (debug : Bool) (h : parse input = .ok prog) :
    (runProgram parse interp input debug).1 = .ok () ∧
    (runProgram parse interp input debug).2.2 = interp ∧
    (runProgram parse interp input debug).2.1 =
      (runProgram parse interp' input debug).2.1 ∧
    (runProgram parse interp input debug).2.1 =
      (if debug then
          OutputEvent.spewDump prog :: OutputEvent.parseSuccessBanner ::
            prog.statements.enum.map
              (fun p => OutputEvent.statementLine (p.1 + 1) p.2)
        else []) ++ [OutputEvent.parsedMessage] := by
  unfold runProgram
  rw [h]
  exact ⟨rfl, rfl, rfl, rfl⟩

/-- Witness for C8 at a parser that accepts the empty program: a second,
different interpreter state leaves the output untouched. -/
theorem runProgram_no_execution_witness :
    (runProgram (fun _ => .ok ⟨[]⟩) ⟨[]⟩ "" false).1 = .ok () ∧
    (runProgram (fun _ => .ok ⟨[]⟩) ⟨[]⟩ "" false).2.2 = ⟨[]⟩ ∧
    (runProgram (fun _ => .ok ⟨[]⟩) ⟨[]⟩ "" false).2.1 =
      (runProgram (fun _ => .ok ⟨[]⟩) ⟨[("y", 2)]⟩ "" false).2.1 ∧
    (runProgram (fun _ => .ok ⟨[]⟩) ⟨[]⟩ "" false).2.1 =
      (if false then
          OutputEvent.spewDump ⟨[]⟩ :: OutputEvent.parseSuccessBanner ::
            (Program.mk []).statements.enum.map
              (fun p => OutputEvent.statementLine (p.1 + 1) p.2)
        else []) ++ [OutputEvent.parsedMessage] :=
  runProgram_no_execution (fun _ => .ok ⟨[]⟩) ⟨[]⟩ ⟨[("y", 2)]⟩ "" ⟨[]⟩ false rfl

/-- The shebang handling of `runScriptFile` (`main.go` lines 78–81): when
the file contents begin with the two bytes `#!`, exactly those two bytes
are overwritten with `//`; otherwise the contents pass through untouched.
Bytes are modelled as characters. -/
def stripShebang (data : List Char) : List Char :=
  if data.take 2 = ['#', '!'] then '/' :: '/' :: data.drop 2 else data

/-- C9: `stripShebang` preserves the length and everything beyond the
first two bytes; a file starting with `#!` has exactly those two bytes
replaced by `//`; any other file is passed through byte-for-byte; and
newline positions (hence all line positions) are unchanged. -/
theorem stripShebang_spec (data : List Char) :
    (stripShebang data).length = data.length ∧
    (stripShebang data).drop 2 = data.drop 2 ∧
    (data.take 2 = ['#', '!'] → stripShebang data = '/' :: '/' :: data.drop 2) ∧
    (data.take 2 ≠ ['#', '!'] → stripShebang data = data) ∧
    (∀ i, ((stripShebang data).get? i = some '\n' ↔ data.get? i = some '\n')) := by
  by_cases hp : data.take 2 = ['#', '!']
  · match data, hp with
    | c1 :: c2 :: rest, hp =>
      simp at hp
      obtain ⟨h1, h2⟩ := hp
      subst h1
      subst h2
      refine ⟨?_, ?_, ?_, ?_, ?_⟩
      · simp [stripShebang]
      · simp [stripShebang]
      · intro _; simp [stripShebang]
      · intro hc; simp at hc
      · intro i
        match i with
        | 0 => simp [stripShebang]
        | 1 => simp [stripShebang]
        | n + 2 => simp [stripShebang]
  · have hs : stripShebang data = data := by simp [stripShebang, hp]
    exact ⟨by rw [hs], by rw [hs], fun hc => absurd hc hp, fun _ => hs,
      fun i => by rw [hs]⟩

/-- Witness for C9 on the script header `#!/bin/wsj\nlet x = 1;`. -/
theorem stripShebang_spec_witness :
    stripShebang ("#!/bin/wsj\nlet x = 1;".toList) =
      '/' :: '/' :: ("#!/bin/wsj\nlet x = 1;".toList).drop 2 :=
  (stripShebang_spec ("#!/bin/wsj\nlet x = 1;".toList)).2.2.1 rfl

/-- Go's `strings.Count` for a non-empty pattern: the number of
non-overlapping instances of `pat` in the text.  The fuel argument makes
the scan structural; fuel equal to the text length is exact, because
every step advances by at least one character.  (The REPL only ever
counts the non-empty patterns `if`, `for` and `end`.) -/
def countSubAux (pat : List Char) : Nat → List Char → Nat
  | _, [] => 0
  | 0, _ => 0
  | fuel + 1, c :: rest =>
      if pat.isPrefixOf (c :: rest) then
        1 + countSubAux pat fuel (List.drop (pat.length - 1) rest)
      else countSubAux pat fuel rest

/-- Embeds `strings.Count(text, pat)` for non-empty `pat`. -/
def countSub (text pat : List Char) : Nat := countSubAux pat text.length text

/-- The function `blockComplete` from the REPL source (the crude heuristic deciding
when the user's block is complete): join the accumulated lines with
newlines, then submit exactly when the count of `end` substrings is at
least the count of `if` substrings plus the count of `for` substrings. -/
def blockComplete (lines : List (List Char)) : Bool :=
  let text := List.intercalate ['\n'] lines
  let opens := countSub text ['i', 'f'] + countSub text ['f', 'o', 'r']
  let closes := countSub text ['e', 'n', 'd']
  decide (opens ≤ closes)

/-- C10: `blockComplete` returns `true` exactly when the number of `end`
substrings in the newline-joined text is at least the number of `if`
substrings plus the number of `for` substrings; any list of lines in
which `if` and `for` do not occur at all is accepted immediately (in
particular one containing none of the three substrings); and occurrences
inside identifiers count like keywords — the single line `let gift = 1`
is held back because of the `if` inside `gift`. -/
theorem blockComplete_spec :
    (∀ lines : List (List Char),
      blockComplete lines = true ↔
        countSub (List.intercalate ['\n'] lines) ['i', 'f'] +
            countSub (List.intercalate ['\n'] lines) ['f', 'o', 'r'] ≤
          countSub (List.intercalate ['\n'] lines) ['e', 'n', 'd']) ∧
    (∀ lines : List (List Char),
      countSub (List.intercalate ['\n'] lines) ['i', 'f'] = 0 →
      countSub (List.intercalate ['\n'] lines) ['f', 'o', 'r'] = 0 →
      blockComplete lines = true) ∧
    blockComplete ["let gift = 1".toList] = false := by
  refine ⟨?_, ?_, ?_⟩
  · intro lines
    simp [blockComplete]
  · intro lines h1 h2
    simp [blockComplete, h1, h2]
  · rfl

/-- Witness for C10: a line with none of the three substrings is
submitted immediately. -/
theorem blockComplete_spec_witness :
    blockComplete ["hello".toList] = true :=
  blockComplete_spec.2.1 ["hello".toList] rfl rfl

end WSJ
